import Mathlib

/- Verification development for the table layer of the
   GeneticInheritanceGraphLibrary (file `tables.py`).  The Python code is
   shallowly embedded: rows are Lean structures, tables are lists of rows plus
   bookkeeping fields, and fallible operations return `Except PyErr`.  Node
   times are modelled as rationals (exact, linearly ordered); genome
   coordinates and row references are integers. -/

/-- PyErr models the Python exception kinds raised by the code in `tables.py`. -/
inductive PyErr where
  | attributeError (msg : String)
  | typeError (msg : String)
  | valueError (msg : String)
  | indexError
  | keyError
  | notImplementedError
deriving Repr, DecidableEq

/-- Modelled from the spec: the `constants` module is not under `src/`.  `NULL`
is the sentinel for absent references; the row classes declare reference
defaults `edge : int = NULL`, and the spec and the tskit convention it follows
use the integer -1. -/
def NULL : Int := -1

/-- Modelled from the spec: bit 0 of a node's flags conventionally means
"is sample". -/
def NODE_IS_SAMPLE : Int := 1

/-- Modelled from the spec: the `constants` module is not under `src/`.  One
guarantee bit of the iedge-table flag word: "every edge's parent node is
strictly older than its child node". -/
def IEDGES_PARENT_OLDER_THAN_CHILD : Int := 2

/-- Modelled from the spec: the flag word with every guarantee bit set ("fully
valid"), the value a fresh iedge table initialises its flags to. -/
def VALID_GIG : Int := 3

/-- IEdgeTableRow from `tables.py`: four genome coordinates, the child and
parent node references, and three reference fields defaulting to NULL. -/
structure IEdgeTableRow where
  child_left : Int
  child_right : Int
  parent_left : Int
  parent_right : Int
  child : Int
  parent : Int
  edge : Int := NULL
  child_chromosome : Int := NULL
  parent_chromosome : Int := NULL
deriving Repr, DecidableEq

/-- IEdgeTableRow.parent_span. -/
def IEdgeTableRow.parent_span (r : IEdgeTableRow) : Int :=
  r.parent_right - r.parent_left

/-- IEdgeTableRow.child_span. -/
def IEdgeTableRow.child_span (r : IEdgeTableRow) : Int :=
  r.child_right - r.child_left

/-- NodeTableRow from `tables.py`. -/
structure NodeTableRow where
  time : ℚ
  flags : Int := 0
  individual : Int := NULL
deriving Repr, DecidableEq

/-- IndividualTableRow from `tables.py`. -/
structure IndividualTableRow where
  parents : List Int := []
deriving Repr, DecidableEq

/-- BaseTable from `tables.py`: an ordered sequence of rows plus the `_frozen`
marker.  (`freeze` turns the Python list into a tuple; only the flag and the
unchanged row sequence matter here.) -/
structure BaseTable (ρ : Type) where
  data : List ρ := []
  frozen : Bool := false
deriving Repr, DecidableEq

/-- Error raised when `add_row` appends to a frozen table: the row sequence is a
tuple, which has no `append`. -/
def frozenAppendErr : PyErr := .attributeError "tuple object has no attribute append"

/-- Error raised by `__setattr__` on a frozen instance. -/
def frozenSetattrErr : PyErr := .attributeError "Trying to set attribute on a frozen instance"

/-- BaseTable.add_row: appends the row built by the row-class constructor and
returns its index; on a frozen table the append itself fails. -/
def BaseTable.add_row {ρ : Type} (t : BaseTable ρ) (r : ρ) :
    Except PyErr (BaseTable ρ × Nat) :=
  if t.frozen then .error frozenAppendErr
  else .ok ({ t with data := t.data ++ [r] }, t.data.length)

/-- BaseTable.append: extracts from the passed object exactly the fields the row
class declares and delegates to `add_row`; for a value that is already a row of
this table the extracted fields rebuild the same row. -/
def BaseTable.append {ρ : Type} (t : BaseTable ρ) (r : ρ) :
    Except PyErr (BaseTable ρ × Nat) :=
  t.add_row r

/-- BaseTable.clear assigns a fresh empty list to `_data`; the assignment goes
through `__setattr__`, which refuses on a frozen instance. -/
def BaseTable.clear {ρ : Type} (t : BaseTable ρ) : Except PyErr (BaseTable ρ) :=
  if t.frozen then .error frozenSetattrErr
  else .ok { t with data := [] }

/-- Direct attribute reassignment `table._data = value`, as guarded by
`__setattr__`. -/
def BaseTable.assignData {ρ : Type} (t : BaseTable ρ) (d : List ρ) :
    Except PyErr (BaseTable ρ) :=
  if t.frozen then .error frozenSetattrErr
  else .ok { t with data := d }

/-- BaseTable.freeze marks the table immutable, keeping the same row sequence. -/
def BaseTable.freeze {ρ : Type} (t : BaseTable ρ) : BaseTable ρ :=
  { t with frozen := true }

/-- BaseTable.copy: a fresh, unfrozen instance holding the same row sequence. -/
def BaseTable.copy {ρ : Type} (t : BaseTable ρ) : BaseTable ρ :=
  { data := t.data }

/-- BaseTable.__eq__ compares only the row sequences of the two tables. -/
def BaseTable.eqData {ρ : Type} (t u : BaseTable ρ) : Prop :=
  t.data = u.data

/-- IEdgeTable from `tables.py`: a BaseTable of iedge rows plus the validity
flag word, which `__init__` sets to `VALID_GIG` on every fresh instance.
(`first_edge_for_child` is not modelled; nothing here reads it.) -/
structure IEdgeTable extends BaseTable IEdgeTableRow where
  flags : Int := VALID_GIG
deriving Repr, DecidableEq

/-- IEdgeTable.unset_bitflag: `self.flags &= ~flag`.  Flag words and the named
flag constants are nonnegative bit masks, on which clearing the bits of `flag`
equals subtracting the common bits; this arithmetic form of the same function
is used because it evaluates inside the kernel. -/
def IEdgeTable.unset_bitflag (t : IEdgeTable) (flag : Int) : IEdgeTable :=
  { t with flags := t.flags - Int.land t.flags flag }

/-- IEdgeTable.copy is the inherited BaseTable.copy: it instantiates a fresh
IEdgeTable — whose `__init__` resets `flags` to `VALID_GIG` — and copies only
the row sequence into it. -/
def IEdgeTable.copy (t : IEdgeTable) : IEdgeTable :=
  { data := t.data }

/-- IEdgeTable.add_row, inherited from BaseTable. -/
def IEdgeTable.add_row (t : IEdgeTable) (r : IEdgeTableRow) :
    Except PyErr (IEdgeTable × Nat) :=
  match t.toBaseTable.add_row r with
  | .error e => .error e
  | .ok p => .ok ({ t with toBaseTable := p.1 }, p.2)

/-- NodeTable from `tables.py`. -/
abbrev NodeTable := BaseTable NodeTableRow

/-- IndividualTable from `tables.py`. -/
abbrev IndividualTable := BaseTable IndividualTableRow

/-- Effective position of Python/numpy index `i` into a sequence of length
`n`: negative indices wrap from the end. -/
def pyIndex (n : Nat) (i : Int) : Int :=
  if i < 0 then (n : Int) + i else i

/-- Python list indexing `xs[i]`: a negative index wraps from the end; an index
out of range raises IndexError. -/
def pyListGet {α : Type} (l : List α) (i : Int) : Except PyErr α :=
  if h : 0 ≤ pyIndex l.length i ∧ (pyIndex l.length i).toNat < l.length then
    .ok (l.get ⟨(pyIndex l.length i).toNat, h.2⟩)
  else .error .indexError

/-- Numpy element lookup `times[i]` into the node-time column, with numpy's
negative-index wrapping; `none` when the index is out of bounds (numpy raises
IndexError there). -/
def npTimeAt (nodes : List NodeTableRow) (i : Int) : Option ℚ :=
  if h : 0 ≤ pyIndex nodes.length i ∧ (pyIndex nodes.length i).toNat < nodes.length
  then some (nodes.get ⟨(pyIndex nodes.length i).toNat, h.2⟩).time
  else none

/-- Lookup in a Python dict modelled as an association list, newest binding
first (the code below inserts every key at most once). -/
def amLookup (m : List (Int × Int)) (k : Int) : Option Int :=
  (m.find? (fun p => p.1 == k)).map (fun p => p.2)

/-- Tables aggregate from `tables.py`: one node table, one iedge table, one
individual table, the time-units label, and the aggregate-level frozen marker. -/
structure Tables where
  nodes : NodeTable := {}
  iedges : IEdgeTable := {}
  individuals : IndividualTable := {}
  time_units : String := "unknown"
  frozen : Bool := false
deriving Repr, DecidableEq

/-- Stable insertion of `a` into an already-sorted list: `a` is placed before
the first element it compares `le` to — hence after every strictly smaller
element and before every element of equal key (which came later in the
original list). -/
def stableInsert {α : Type} (le : α → α → Bool) (a : α) : List α → List α
  | [] => [a]
  | b :: l => if le a b then a :: b :: l else b :: stableInsert le a l

/-- Stable sort by `le` (insertion sort, structurally recursive so that
concrete runs evaluate).  `np.lexsort` followed by gathering is likewise a
stable sort by its key tuple, and two stable sorts by the same total preorder
agree on every list. -/
def stableSort {α : Type} (le : α → α → Bool) : List α → List α
  | [] => []
  | a :: l => stableInsert le a (stableSort le l)

/-- Sort key the code computes for an iedge: `np.lexsort` receives the key
columns `(child_left, child, -nodes.time[child])` with the LAST entry primary.
Note that the primary key indexes the node-time column by each edge's CHILD
(`self.nodes.time[self.iedges.child]`), not by its parent. -/
def iedgeSortKey (nodes : List NodeTableRow) (e : IEdgeTableRow) : ℚ × Int × Int :=
  ((npTimeAt nodes e.child).getD 0, e.child, e.child_left)

/-- Order used by the stable sort of the iedges: child-node time descending,
then child id ascending, then child_left ascending. -/
def iedgeLE (nodes : List NodeTableRow) (e f : IEdgeTableRow) : Bool :=
  let ke := iedgeSortKey nodes e
  let kf := iedgeSortKey nodes f
  decide (kf.1 < ke.1 ∨ (ke.1 = kf.1 ∧
    (ke.2.1 < kf.2.1 ∨ (ke.2.1 = kf.2.1 ∧ ke.2.2 ≤ kf.2.2))))

/-- Tables.sort: returns unchanged on an empty iedge table; otherwise stably
reorders the iedges by `iedgeLE` (IndexError if some edge's child does not index
the node-time column), rebuilding a FRESH IEdgeTable — so its flags are reset to
`VALID_GIG` — and assigning it, which `__setattr__` refuses on a frozen
aggregate.  The code argsorts indices with `np.lexsort` (a stable sort) and
gathers; that equals stably merge-sorting the rows by the same key.  The rebuild
appends each row through `add_int_row`, which maps an integer-typed row to
itself. -/
def Tables.sort (t : Tables) : Except PyErr Tables :=
  if t.iedges.data.isEmpty then .ok t
  else if t.iedges.data.all (fun e => (npTimeAt t.nodes.data e.child).isSome) then
    if t.frozen then .error frozenSetattrErr
    else .ok { t with iedges := { data := stableSort (iedgeLE t.nodes.data) t.iedges.data } }
  else .error .indexError

/-- Tables.add_iedge_row.  When validation is requested, the referenced node
times are compared first (an IndexError on the node lookups is converted to
ValueError).  Every path then dereferences `self.edges` — an attribute `Tables`
does not define (its tables are named `nodes`, `iedges` and `individuals`) — so
every call raises AttributeError: with the default `None` already at
`self.edges.unset_bitflag(...)`, otherwise at `self.edges.add_row(*args**kwargs)`
(itself also a defective call expression). -/
def Tables.add_iedge_row (t : Tables) (child parent : Int)
    (node_time_validation : Option Bool) : Except PyErr Tables :=
  match node_time_validation with
  | some true =>
    match pyListGet t.nodes.data child, pyListGet t.nodes.data parent with
    | .ok cnd, .ok pnd =>
      if pnd.time ≤ cnd.time then
        .error (.valueError "Child time is not less than parent time")
      else .error (.attributeError "edges")
    | _, _ =>
      .error (.valueError "Child or parent ID does not correspond to a node in the node table")
  | some false => .error (.attributeError "edges")
  | none => .error (.attributeError "edges")

/-- Accumulator of the node/individual pass of `Tables.decapitate`. -/
structure DecapAcc where
  indivs : List IndividualTableRow
  imap : List (Int × Int)
  nds : List NodeTableRow
  nmap : List (Int × Int)
deriving Repr, DecidableEq

/-- Node/individual pass of `Tables.decapitate`, iterating
`enumerate(self.nodes)` with running index `u`.  A node is kept when
`time < cutoff`; its individual is fetched by Python list indexing BEFORE the
`if i not in individual_map` test (so a NULL individual reference combined with
an empty individual table raises IndexError); an unseen individual is appended
with its parent references rewritten through the current individual map
(missing parents become NULL); the node is then appended with its individual
reference remapped, and its original index is bound to its new index. -/
def decapNodesGo (c : ℚ) (origIndivs : List IndividualTableRow) :
    List NodeTableRow → Nat → DecapAcc → Except PyErr DecapAcc
  | [], _, acc => .ok acc
  | nd :: rest, u, acc =>
    if nd.time < c then
      match pyListGet origIndivs nd.individual with
      | .error e => .error e
      | .ok indiv =>
        let acc1 :=
          if (amLookup acc.imap nd.individual).isSome then acc
          else
            { acc with
              indivs := acc.indivs ++
                [⟨indiv.parents.map (fun j => (amLookup acc.imap j).getD NULL)⟩],
              imap := (nd.individual, (acc.indivs.length : Int)) :: acc.imap }
        decapNodesGo c origIndivs rest (u + 1)
          { acc1 with
            nds := acc1.nds ++
              [{ time := nd.time, flags := nd.flags,
                 individual := (amLookup acc1.imap nd.individual).getD NULL }],
            nmap := ((u : Int), (acc1.nds.length : Int)) :: acc1.nmap }
    else decapNodesGo c origIndivs rest (u + 1) acc

/-- Edge pass of `Tables.decapitate`: an iedge is kept when its parent is a key
of the node map; the new row carries the four coordinates and the remapped
child (KeyError if the child was not kept) and parent, leaving `edge` and the
two chromosome fields at their NULL defaults. -/
def decapEdgesGo (nmap : List (Int × Int)) :
    List IEdgeTableRow → List IEdgeTableRow → Except PyErr (List IEdgeTableRow)
  | acc, [] => .ok acc
  | acc, ie :: rest =>
    match amLookup nmap ie.parent with
    | none => decapEdgesGo nmap acc rest
    | some p =>
      match amLookup nmap ie.child with
      | none => .error .keyError
      | some ch =>
        decapEdgesGo nmap
          (acc ++ [{ child_left := ie.child_left, child_right := ie.child_right,
                     parent_left := ie.parent_left, parent_right := ie.parent_right,
                     child := ch, parent := p }]) rest

/-- Tables.decapitate: rebuild the individual and node tables (the individual
map is seeded with NULL bound to NULL), rebuild the iedge table, assign the
three fresh tables (refused on a frozen aggregate), and finish with `sort()`. -/
def Tables.decapitate (t : Tables) (c : ℚ) : Except PyErr Tables :=
  match decapNodesGo c t.individuals.data t.nodes.data 0 ⟨[], [(NULL, NULL)], [], []⟩ with
  | .error e => .error e
  | .ok acc =>
    match decapEdgesGo acc.nmap [] t.iedges.data with
    | .error e => .error e
    | .ok newEdges =>
      if t.frozen then .error frozenSetattrErr
      else
        Tables.sort { t with nodes := { data := acc.nds },
                             iedges := { data := newEdges },
                             individuals := { data := acc.indivs } }

/-- Node row of the external tree-sequence collection, restricted to the fields
`from_tree_sequence` copies (the others are filtered away by `append`). -/
structure TsNodeRow where
  time : ℚ
  flags : Int
  individual : Int
deriving Repr, DecidableEq

/-- Edge row of the external tree-sequence collection: one interval with a
single `left`/`right` pair; coordinates are floating-point there. -/
structure TsEdgeRow where
  left : ℚ
  right : ℚ
  parent : Int
  child : Int
deriving Repr, DecidableEq

/-- Individual row of the external tree-sequence collection. -/
structure TsIndividualRow where
  parents : List Int
deriving Repr, DecidableEq

/-- External tree-sequence table collection at the import boundary: the row
sets `from_tree_sequence` copies, plus the row counts of the features it
refuses, plus the time-units label. -/
structure TreeSequence where
  nodes : List TsNodeRow := []
  edges : List TsEdgeRow := []
  individuals : List TsIndividualRow := []
  migrations : Nat := 0
  mutations : Nat := 0
  sites : Nat := 0
  populations : Nat := 0
  time_units : String := "unknown"
deriving Repr, DecidableEq

/-- BaseTable._check_int applied to a float coordinate (the case arising in
tree-sequence import): an integral-valued float converts to the integer, any
other float raises ValueError. -/
def checkIntQ (q : ℚ) : Except PyErr Int :=
  if q.den = 1 then .ok q.num
  else .error (.valueError ("Expected an integer not " ++ toString q))

/-- Row an external edge becomes when both of its coordinates are integral:
the single `left`/`right` pair fills both the child and the parent side, and
the chromosome stamp, when given, fills both chromosome fields. -/
def importedEdge (chromosome : Option Int) (r : TsEdgeRow) : IEdgeTableRow :=
  { child_left := r.left.num, child_right := r.right.num,
    parent_left := r.left.num, parent_right := r.right.num,
    child := r.child, parent := r.parent,
    child_chromosome := chromosome.getD NULL,
    parent_chromosome := chromosome.getD NULL }

/-- Translation of one external edge row: `IEdgeTable.append` maps the single
`left`/`right` pair onto both the child and the parent side, `add_int_row`
coerces the coordinates (left before right), and the chromosome stamp, when
given, fills both chromosome fields. -/
def importEdge (chromosome : Option Int) (r : TsEdgeRow) : Except PyErr IEdgeTableRow :=
  match checkIntQ r.left, checkIntQ r.right with
  | .ok l, .ok rr =>
    .ok { child_left := l, child_right := rr, parent_left := l, parent_right := rr,
          child := r.child, parent := r.parent,
          child_chromosome := chromosome.getD NULL,
          parent_chromosome := chromosome.getD NULL }
  | .error e, _ => .error e
  | _, .error e => .error e

/-- Edge-copy loop of `from_tree_sequence`: stops at the first edge whose
translation raises. -/
def importEdges (chromosome : Option Int) :
    List TsEdgeRow → Except PyErr (List IEdgeTableRow)
  | [] => .ok []
  | r :: rest =>
    match importEdge chromosome r with
    | .error e => .error e
    | .ok ie =>
      match importEdges chromosome rest with
      | .error e => .error e
      | .ok ies => .ok (ie :: ies)

/-- Tables.from_tree_sequence: refuse migrations, mutations, sites, and more
than one population — in that order, before any row is copied; then copy the
nodes with times shifted by `timedelta`, expand each single-interval edge onto
both sides, copy the individuals, and finish with `sort()`. -/
def Tables.from_tree_sequence (ts : TreeSequence) (chromosome : Option Int)
    (timedelta : ℚ) : Except PyErr Tables :=
  if ts.migrations > 0 then .error .notImplementedError
  else if ts.mutations > 0 then .error .notImplementedError
  else if ts.sites > 0 then .error .notImplementedError
  else if ts.populations > 1 then .error .notImplementedError
  else
    match importEdges chromosome ts.edges with
    | .error e => .error e
    | .ok ies =>
      Tables.sort
        { nodes := { data := ts.nodes.map (fun r =>
            { time := r.time + timedelta, flags := r.flags,
              individual := r.individual }) },
          iedges := { data := ies },
          individuals := { data := ts.individuals.map (fun r => ⟨r.parents⟩) },
          time_units := ts.time_units }

/-- PyVal models the Python runtime values that reach row construction and the
integer-coercion helper (`tables.py` performs dynamic type tests on them).
Tuples appear only as tuples of row references, so `vtuple` carries integers. -/
inductive PyVal where
  | vint (i : Int)
  | vfloat (q : ℚ)
  | vstr (s : String)
  | vtuple (l : List Int)
  | vnone
deriving Repr, DecidableEq

/-- Declared semantic field types appearing on the row dataclasses. -/
inductive PyType where
  | tint
  | tfloat
  | ttuple
deriving Repr, DecidableEq

/-- Python `isinstance` restricted to the declared field types.  Note a Python
int is NOT an instance of `float`. -/
def isinstance : PyVal → PyType → Bool
  | .vint _, .tint => true
  | .vfloat _, .tfloat => true
  | .vtuple _, .ttuple => true
  | _, _ => false

/-- Printable name of a declared field type (message payload only). -/
def pyTypeName : PyType → String
  | .tint => "int"
  | .tfloat => "float"
  | .ttuple => "tuple"

/-- Abbreviated `repr` of a value (message payload only). -/
def pyRepr : PyVal → String
  | .vint i => toString i
  | .vfloat q => toString q
  | .vstr s => s
  | .vtuple _ => "tuple"
  | .vnone => "None"

/-- TableRow._validate: walk the declared fields in order; the first field
whose value is not an instance of its declared type raises ValueError naming
the field, the expected type, and the value. -/
def rowValidate : List (String × PyType) → List PyVal → Except PyErr Unit
  | [], _ => .ok ()
  | _ :: _, [] => .ok ()
  | (n, ty) :: fs, v :: vs =>
    if isinstance v ty then rowValidate fs vs
    else .error (.valueError
      ("Expected " ++ n ++ " to be " ++ pyTypeName ty ++ ", got " ++ pyRepr v))

/-- First declared field whose value mismatches its declared type
(specification-side reformulation used to characterise `rowValidate`). -/
def firstMismatch : List (String × PyType) → List PyVal → Option (String × PyType × PyVal)
  | [], _ => none
  | _ :: _, [] => none
  | (n, ty) :: fs, v :: vs =>
    if isinstance v ty then firstMismatch fs vs else some (n, ty, v)

/-- Declared field schema of NodeTableRow: `time : float`, `flags : int`,
`individual : int`. -/
def nodeSchema : List (String × PyType) :=
  [("time", .tfloat), ("flags", .tint), ("individual", .tint)]

/-- Dynamically-typed view of a generic table: rows are the raw value tuples
the dataclass constructor stored, with the frozen marker as in BaseTable. -/
structure DynTable where
  data : List (List PyVal) := []
  frozen : Bool := false
deriving Repr, DecidableEq

/-- BaseTable.add_row seen at the dynamic level: `self._data.append(
self.RowClass(*args, **kwargs))`.  The dataclass constructor performs NO type
validation — `TableRow._validate` exists but is never invoked — so any value
assignment of the right arity is stored as-is. -/
def DynTable.add_row (t : DynTable) (vals : List PyVal) :
    Except PyErr (DynTable × Nat) :=
  if t.frozen then .error frozenAppendErr
  else .ok ({ t with data := t.data ++ [vals] }, t.data.length)

/-- BaseTable._check_int: a Python int passes through unchanged; a value with
an `is_integer` method (a float) converts when integral-valued and raises
ValueError otherwise; any other value has no such attribute, so the
AttributeError is converted to TypeError. -/
def check_int : PyVal → Except PyErr PyVal
  | .vint i => .ok (.vint i)
  | .vfloat q =>
    if q.den = 1 then .ok (.vint q.num)
    else .error (.valueError ("Expected an integer not " ++ toString q))
  | v => .error (.typeError ("Could not convert " ++ pyRepr v ++ " to an integer"))

/-- Dynamically-typed iedge row as `add_int_row` builds it: the coerced fields
hold whatever `_check_int` returned, the remaining keyword fields hold the
caller's values exactly as passed. -/
structure DynIEdgeRow where
  child_left : PyVal
  child_right : PyVal
  parent_left : PyVal
  parent_right : PyVal
  child : PyVal
  parent : PyVal
  edge : PyVal := .vint NULL
  child_chromosome : PyVal := .vint NULL
  parent_chromosome : PyVal := .vint NULL
deriving Repr, DecidableEq

/-- Dynamically-typed iedge table. -/
structure DynIEdgeTable where
  data : List DynIEdgeRow := []
  frozen : Bool := false
  flags : Int := VALID_GIG
deriving Repr, DecidableEq

/-- IEdgeTable.add_int_row with the four interval coordinates positional and
the remaining fields by keyword.  `pcols` lists exactly `child_left`,
`child_right`, `parent_left`, `parent_right`, `child` and `parent`: those six
values go through `_check_int` (positional coordinates first, then the keyword
fields), while the `edge`, `child_chromosome` and `parent_chromosome` keywords
are NOT in `pcols` and are stored unconverted. -/
def DynIEdgeTable.add_int_row (t : DynIEdgeTable)
    (a b c d child parent edge child_chromosome parent_chromosome : PyVal) :
    Except PyErr (DynIEdgeTable × Nat) :=
  match check_int a with
  | .error e => .error e
  | .ok a1 =>
  match check_int b with
  | .error e => .error e
  | .ok b1 =>
  match check_int c with
  | .error e => .error e
  | .ok c1 =>
  match check_int d with
  | .error e => .error e
  | .ok d1 =>
  match check_int child with
  | .error e => .error e
  | .ok ch1 =>
  match check_int parent with
  | .error e => .error e
  | .ok pa1 =>
  if t.frozen then .error frozenAppendErr
  else .ok ({ t with data := t.data ++
    [{ child_left := a1, child_right := b1, parent_left := c1, parent_right := d1,
       child := ch1, parent := pa1, edge := edge,
       child_chromosome := child_chromosome,
       parent_chromosome := parent_chromosome }] }, t.data.length)

/-- The rational 1/2, written as an explicit reduced fraction so that it
evaluates inside the kernel. -/
def oneHalf : ℚ := ⟨1, 2, by decide, by decide⟩

/-- The rational 3/2 (the 1.5 cutoff of the spec scenario), written as an
explicit reduced fraction so that it evaluates inside the kernel. -/
def threeHalves : ℚ := ⟨3, 2, by decide, by decide⟩

/-- Aggregate used against claim C1: four nodes with times 1, 2, 0, 3 and two
iedges — A with child 0 (time 1) and parent 1 (time 2), B with child 2 (time 0)
and parent 3 (time 3).  Every node reference is in range and on each edge the
parent is strictly older than its child. -/
def tbC1 : Tables :=
  { nodes := { data := [{ time := 1 }, { time := 2 }, { time := 0 }, { time := 3 }] },
    iedges := { data :=
      [{ child_left := 0, child_right := 10, parent_left := 0, parent_right := 10,
         child := 0, parent := 1 },
       { child_left := 0, child_right := 10, parent_left := 0, parent_right := 10,
         child := 2, parent := 3 }] },
    individuals := {} }

/-- Aggregate of the spec's concrete scenario (claim C3): three nodes with
times 0, 1, 2 (child, parent, grandparent), no individuals, and the two iedges
(0,10,0,10,child=0,parent=1) and (0,10,0,10,child=1,parent=2). -/
def tbC3 : Tables :=
  { nodes := { data := [{ time := 0 }, { time := 1 }, { time := 2 }] },
    iedges := { data :=
      [{ child_left := 0, child_right := 10, parent_left := 0, parent_right := 10,
         child := 0, parent := 1 },
       { child_left := 0, child_right := 10, parent_left := 0, parent_right := 10,
         child := 1, parent := 2 }] },
    individuals := {} }

/-- Clean external collection: no unsupported features, one population label,
integral edge coordinates, in-range child references. -/
def tsW : TreeSequence :=
  { nodes := [{ time := 0, flags := 1, individual := -1 },
              { time := 1, flags := 0, individual := -1 }],
    edges := [{ left := 0, right := 10, parent := 1, child := 0 }],
    populations := 1, time_units := "generations" }

/-- External collection refuting the unconditional second half of claim C9: it
contains no migration, mutation, site, and only one population, yet its single
edge has the non-integral left coordinate 1/2. -/
def tsBad : TreeSequence :=
  { nodes := [{ time := 0, flags := 1, individual := -1 }],
    edges := [{ left := oneHalf, right := 10, parent := 0, child := 0 }],
    populations := 1 }

/-- The node with original index `k` is kept by `decapitate` at cutoff `c`:
`k` is a nonnegative index of the original node table and that node's time is
below the cutoff. -/
def keptNode (orig : List NodeTableRow) (c : ℚ) (k : Int) : Prop :=
  0 ≤ k ∧ ∃ nd, orig[k.toNat]? = some nd ∧ nd.time < c

/-- Rewriting of one original iedge through the node remap, as the edge pass of
`decapitate` performs it: coordinates carried over, endpoints remapped, `edge`
and the chromosome fields left at their NULL defaults. -/
def remapEdge (nmap : List (Int × Int)) (ie : IEdgeTableRow) : IEdgeTableRow :=
  { child_left := ie.child_left, child_right := ie.child_right,
    parent_left := ie.parent_left, parent_right := ie.parent_right,
    child := (amLookup nmap ie.child).getD NULL,
    parent := (amLookup nmap ie.parent).getD NULL }

/-- Invariant carried through the node/individual pass of `decapitate`, with
`u` original nodes already consumed. -/
structure DecapInv (orig : List NodeTableRow) (c : ℚ) (u : Nat) (acc : DecapAcc) :
    Prop where
  nds_time : ∀ nd ∈ acc.nds, nd.time < c
  imap_val : ∀ kv ∈ acc.imap, kv.2 = NULL ∨ (0 ≤ kv.2 ∧ kv.2 < (acc.indivs.length : Int))
  ind_par : ∀ ind ∈ acc.indivs, ∀ p ∈ ind.parents,
    p = NULL ∨ (0 ≤ p ∧ p < (acc.indivs.length : Int))
  nmap_keys : ∀ kv ∈ acc.nmap, 0 ≤ kv.1 ∧ kv.1 < (u : Int)
  nmap_desc : acc.nmap.Pairwise (fun p q => q.1 < p.1 ∧ q.2 < p.2)
  nmap_vals : acc.nmap.map Prod.snd = ((List.range acc.nds.length).reverse).map Int.ofNat
  nmap_char : ∀ k : Int, (amLookup acc.nmap k).isSome = true ↔
    (k < (u : Int) ∧ keptNode orig c k)

/-- Aggregate for the decapitation witnesses: one individual (with a NULL
parent reference), two nodes with times 0 and 2 both tied to that individual,
and two edges — the first carries non-null `edge` and chromosome fields and
its parent (node 0, time 0) survives a cut at time 1; the second's parent
(node 1, time 2) does not. -/
def tbW : Tables :=
  { nodes := { data := [{ time := 0, flags := 1, individual := 0 },
                        { time := 2, flags := 0, individual := 0 }] },
    iedges := { data :=
      [{ child_left := 0, child_right := 5, parent_left := 0, parent_right := 5,
         child := 0, parent := 0, edge := 7, child_chromosome := 3,
         parent_chromosome := 4 },
       { child_left := 0, child_right := 5, parent_left := 0, parent_right := 5,
         child := 0, parent := 1, edge := 8 }] },
    individuals := { data := [{ parents := [NULL] }] } }

/-- Value of `tbW.decapitate 1`: node 1 and the second edge are dropped, and
the surviving edge's `edge`/chromosome fields are back at NULL. -/
def tbWres : Tables :=
  { nodes := { data := [{ time := 0, flags := 1, individual := 0 }] },
    iedges := { data := [{ child_left := 0, child_right := 5, parent_left := 0,
                           parent_right := 5, child := 0, parent := 0 }] },
    individuals := { data := [{ parents := [NULL] }] } }

/-- The single iedge surviving `tbW.decapitate 1`. -/
def ieWres : IEdgeTableRow :=
  { child_left := 0, child_right := 5, parent_left := 0, parent_right := 5,
    child := 0, parent := 0 }

/-- Totality of the iedge sort order, in the form `sorted_mergeSort` expects. -/
theorem iedgeLE_total (nodes : List NodeTableRow) (e f : IEdgeTableRow) :
    (iedgeLE nodes e f || iedgeLE nodes f e) = true := by
  simp only [iedgeLE, Bool.or_eq_true, decide_eq_true_eq]
  rcases lt_trichotomy (iedgeSortKey nodes e).1 (iedgeSortKey nodes f).1 with h | h | h
  · exact Or.inr (Or.inl h)
  · rcases lt_trichotomy (iedgeSortKey nodes e).2.1 (iedgeSortKey nodes f).2.1 with h2 | h2 | h2
    · exact Or.inl (Or.inr ⟨h, Or.inl h2⟩)
    · rcases le_total (iedgeSortKey nodes e).2.2 (iedgeSortKey nodes f).2.2 with h3 | h3
      · exact Or.inl (Or.inr ⟨h, Or.inr ⟨h2, h3⟩⟩)
      · exact Or.inr (Or.inr ⟨h.symm, Or.inr ⟨h2.symm, h3⟩⟩)
    · exact Or.inr (Or.inr ⟨h.symm, Or.inl h2⟩)
  · exact Or.inl (Or.inl h)

/-- Transitivity of the iedge sort order. -/
theorem iedgeLE_trans (nodes : List NodeTableRow) (a b c : IEdgeTableRow)
    (hab : iedgeLE nodes a b = true) (hbc : iedgeLE nodes b c = true) :
    iedgeLE nodes a c = true := by
  simp only [iedgeLE, decide_eq_true_eq] at hab hbc ⊢
  obtain hab | ⟨hab1, hab2⟩ := hab <;> obtain hbc | ⟨hbc1, hbc2⟩ := hbc
  · exact Or.inl (lt_trans hbc hab)
  · exact Or.inl (by rw [← hbc1]; exact hab)
  · exact Or.inl (by rw [hab1]; exact hbc)
  · refine Or.inr ⟨hab1.trans hbc1, ?_⟩
    obtain h2 | ⟨h2, h3⟩ := hab2 <;> obtain h4 | ⟨h4, h5⟩ := hbc2
    · exact Or.inl (lt_trans h2 h4)
    · exact Or.inl (by rw [← h4]; exact h2)
    · exact Or.inl (by rw [h2]; exact h4)
    · exact Or.inr ⟨h2.trans h4, le_trans h3 h5⟩

/-- Inserting an element permutes to consing it. -/
theorem stableInsert_perm {α : Type} (le : α → α → Bool) (a : α) (l : List α) :
    (stableInsert le a l).Perm (a :: l) := by
  induction l with
  | nil => exact List.Perm.refl _
  | cons b l ih =>
    unfold stableInsert
    by_cases h : le a b
    · rw [if_pos h]
    · rw [if_neg h]
      exact (ih.cons b).trans (List.Perm.swap a b l)

/-- The stable sort permutes its input. -/
theorem stableSort_perm {α : Type} (le : α → α → Bool) (l : List α) :
    (stableSort le l).Perm l := by
  induction l with
  | nil => exact List.Perm.refl _
  | cons a l ih =>
    exact (stableInsert_perm le a (stableSort le l)).trans (ih.cons a)

/-- Insertion into a sorted list keeps it sorted, for a total transitive
comparison. -/
theorem stableInsert_pairwise {α : Type} {le : α → α → Bool}
    (htrans : ∀ a b c, le a b = true → le b c = true → le a c = true)
    (htot : ∀ a b, (le a b || le b a) = true) (a : α) {l : List α}
    (h : l.Pairwise (fun x y => le x y = true)) :
    (stableInsert le a l).Pairwise (fun x y => le x y = true) := by
  induction l with
  | nil => simp [stableInsert]
  | cons b l ih =>
    rcases List.pairwise_cons.mp h with ⟨hb, hl⟩
    unfold stableInsert
    by_cases hab : le a b
    · rw [if_pos hab]
      refine List.pairwise_cons.mpr ⟨?_, h⟩
      intro x hx
      rcases List.mem_cons.mp hx with rfl | hx
      · exact hab
      · exact htrans a b x hab (hb x hx)
    · rw [if_neg hab]
      refine List.pairwise_cons.mpr ⟨?_, ih hl⟩
      intro x hx
      have hmem : x = a ∨ x ∈ l := by
        simpa using (stableInsert_perm le a l).mem_iff.mp hx
      rcases hmem with hxa | hx2
      · rw [hxa]
        have h2 := htot a b
        simp only [hab, Bool.false_or] at h2
        exact h2
      · exact hb x hx2

/-- The stable sort sorts, for a total transitive comparison. -/
theorem stableSort_pairwise {α : Type} {le : α → α → Bool}
    (htrans : ∀ a b c, le a b = true → le b c = true → le a c = true)
    (htot : ∀ a b, (le a b || le b a) = true) (l : List α) :
    (stableSort le l).Pairwise (fun x y => le x y = true) := by
  induction l with
  | nil => exact List.Pairwise.nil
  | cons a l ih => exact stableInsert_pairwise htrans htot a ih

/-- What `Tables.sort` guarantees whenever it returns normally: the node and
individual tables, the label and the frozen marker are untouched; the iedge
rows are a permutation of the original ones; and — because the rebuild goes
through a fresh IEdgeTable — the iedge flags are reset to `VALID_GIG` unless
the table was empty (the early-return case, which rebuilds nothing). -/
theorem sort_ok_spec {t t' : Tables} (h : t.sort = .ok t') :
    t'.nodes = t.nodes ∧ t'.individuals = t.individuals ∧
    t'.time_units = t.time_units ∧ t'.frozen = t.frozen ∧
    t'.iedges.data.Perm t.iedges.data ∧
    t'.iedges.flags = (if t.iedges.data.isEmpty then t.iedges.flags else VALID_GIG) := by
  unfold Tables.sort at h
  by_cases he : t.iedges.data.isEmpty
  · simp only [he, if_true, Except.ok.injEq] at h
    subst h
    exact ⟨rfl, rfl, rfl, rfl, List.Perm.refl _, by simp [he]⟩
  · by_cases hall : t.iedges.data.all (fun e => (npTimeAt t.nodes.data e.child).isSome)
    · by_cases hf : t.frozen
      · simp [he, hall, hf] at h
      · simp only [he, hall, hf, Bool.false_eq_true, if_false, if_true,
          Except.ok.injEq] at h
        subst h
        simp only [Bool.not_eq_true] at hf
        exact ⟨rfl, rfl, rfl, hf.symm, stableSort_perm _ _, by simp [he]⟩
    · simp [he, hall] at h

/-- Sortedness of the iedge table produced by a successful `Tables.sort`. -/
theorem sort_ok_sorted {t t' : Tables} (h : t.sort = .ok t') :
    t'.iedges.data.Pairwise (fun e f => iedgeLE t'.nodes.data e f = true) := by
  unfold Tables.sort at h
  by_cases he : t.iedges.data.isEmpty
  · simp only [he, if_true, Except.ok.injEq] at h
    subst h
    rw [List.isEmpty_iff] at he
    rw [he]
    exact List.Pairwise.nil
  · by_cases hall : t.iedges.data.all (fun e => (npTimeAt t.nodes.data e.child).isSome)
    · by_cases hf : t.frozen
      · simp [he, hall, hf] at h
      · simp only [he, hall, hf, Bool.false_eq_true, if_false, if_true,
          Except.ok.injEq] at h
        subst h
        exact stableSort_pairwise (iedgeLE_trans t.nodes.data)
          (iedgeLE_total t.nodes.data) t.iedges.data
    · simp [he, hall] at h

/-- Unfolding of the association-list lookup over a fresh binding. -/
theorem amLookup_cons (k0 v0 : Int) (m : List (Int × Int)) (k : Int) :
    amLookup ((k0, v0) :: m) k = if k0 = k then some v0 else amLookup m k := by
  by_cases hk : k0 = k
  · simp [amLookup, List.find?, hk]
  · have hb : (k0 == k) = false := by simp [hk]
    simp [amLookup, List.find?, hb, hk]

/-- A successful lookup exhibits a binding of the association list. -/
theorem amLookup_eq_some {m : List (Int × Int)} {k v : Int}
    (h : amLookup m k = some v) : (k, v) ∈ m := by
  unfold amLookup at h
  rw [Option.map_eq_some'] at h
  obtain ⟨p, hp, hv⟩ := h
  have h1 := List.find?_some hp
  have h2 := List.mem_of_find?_eq_some hp
  simp only [beq_iff_eq] at h1
  have hpe : p = (k, v) := by
    cases p
    simp_all
  rw [hpe] at h2
  exact h2

/-- Destructuring of a successful `Tables.decapitate`: the node pass, the edge
pass and the final `sort()` all returned normally, and the aggregate was not
frozen. -/
theorem decapitate_ok_parts {t : Tables} {c : ℚ} {t' : Tables}
    (h : t.decapitate c = .ok t') :
    ∃ acc newEdges,
      decapNodesGo c t.individuals.data t.nodes.data 0 ⟨[], [(NULL, NULL)], [], []⟩
        = .ok acc ∧
      decapEdgesGo acc.nmap [] t.iedges.data = .ok newEdges ∧
      t.frozen = false ∧
      Tables.sort { t with nodes := { data := acc.nds },
                           iedges := { data := newEdges },
                           individuals := { data := acc.indivs } } = .ok t' := by
  unfold Tables.decapitate at h
  split at h
  · exact absurd h (by simp)
  · rename_i acc h1
    split at h
    · exact absurd h (by simp)
    · rename_i newEdges h2
      by_cases hf : t.frozen
      · rw [if_pos hf] at h; exact absurd h (by simp)
      · rw [if_neg hf] at h
        simp only [Bool.not_eq_true] at hf
        exact ⟨acc, newEdges, h1, h2, hf, h⟩

/-- C1: the claim fails on the code (code bug).  `Tables.sort` keys the primary
sort on `nodes.time[iedges.child]` — each edge's CHILD time — although its own
comment says "sorted by parent time" and its docstring cites the tskit edge
criteria.  On `tbC1` the sorted table keeps order A (parent time 2) before
B (parent time 3): the parent-time sequence along the sorted edge table is
[2, 3], which is strictly increasing, refuting the claimed non-increasing
parent-time order (the claimed key would give B before A). -/
theorem C1_sort_primary_key_is_child_time :
    (tbC1.sort).map (fun tb => tb.iedges.data.map (fun e => (e.child, e.parent)))
      = .ok [(0, 1), (2, 3)] ∧
    (tbC1.sort).map (fun tb =>
        tb.iedges.data.map (fun e => (npTimeAt tb.nodes.data e.parent).getD 0))
      = .ok [2, 3] ∧
    ¬ List.Chain' (fun a b : ℚ => b ≤ a) [(2 : ℚ), 3] := by
  refine ⟨rfl, rfl, ?_⟩
  intro hchain
  have h32 : (3 : ℚ) ≤ 2 := List.chain'_cons.mp hchain |>.1
  norm_num at h32

/-- C2: the claim fails on the code (code bug).  `Tables.add_iedge_row`
dereferences `self.edges`, an attribute that does not exist on `Tables` (its
tables are `nodes`, `iedges`, `individuals`), so with the default
`node_time_validation=None` the call raises AttributeError at
`self.edges.unset_bitflag(...)` instead of clearing the flag and appending a
row; the final `self.edges.add_row(*args**kwargs)` is equally unreachable and
itself defective. -/
theorem C2_add_iedge_row_always_raises (t : Tables) (child parent : Int) :
    t.add_iedge_row child parent none = .error (.attributeError "edges") := rfl

/-- C3: the sort half of the scenario holds — `sort()` orders the edges as
[edge(child=1,parent=2), edge(child=0,parent=1)] — but `decapitate(1.5)` does
NOT return normally (code bug): for the kept node 0 the code executes
`self.individuals[nd.individual]` with `individual = NULL = -1` BEFORE testing
`i not in individual_map`, and indexing the empty individual table raises
IndexError. -/
theorem C3_scenario_sort_ok_decapitate_raises :
    threeHalves = (3 : ℚ) / 2 ∧
    (tbC3.sort).map (fun tb => tb.iedges.data.map (fun e => (e.child, e.parent)))
      = .ok [(1, 2), (0, 1)] ∧
    tbC3.decapitate threeHalves = .error .indexError := by
  refine ⟨?_, rfl, rfl⟩
  rw [threeHalves, Rat.mk'_eq_divInt, Rat.divInt_eq_div]
  norm_num

/-- C4 counterexample: the claim fails on the code.  With the node schema, the
assignment time="foo" mismatches the declared `float` (as `firstMismatch`
exhibits), yet `add_row` appends the row and returns its index 0 instead of
raising: the dataclass constructor never invokes `TableRow._validate`. -/
theorem C4_add_row_accepts_mismatched_field :
    firstMismatch nodeSchema [.vstr "foo", .vint 0, .vint NULL]
      = some ("time", .tfloat, .vstr "foo") ∧
    DynTable.add_row {} [.vstr "foo", .vint 0, .vint NULL]
      = .ok ({ data := [[.vstr "foo", .vint 0, .vint NULL]] }, 0) := by
  exact ⟨rfl, rfl⟩

/-- C4 amended: `add_row` performs no semantic type validation — it appends the
constructed row unconditionally and returns its index — while the separate,
never-invoked `TableRow._validate` is exactly characterised as raising the
field-type error naming the first mismatched field, its expected type and its
value, and succeeding when every field value matches. -/
theorem C4_add_row_unvalidated_and_validate_characterised :
    (∀ (d : List (List PyVal)) (vals : List PyVal),
      DynTable.add_row { data := d } vals = .ok ({ data := d ++ [vals] }, d.length)) ∧
    (∀ (schema : List (String × PyType)) (vals : List PyVal),
      rowValidate schema vals =
        match firstMismatch schema vals with
        | some (n, ty, v) => .error (.valueError
            ("Expected " ++ n ++ " to be " ++ pyTypeName ty ++ ", got " ++ pyRepr v))
        | none => .ok ()) := by
  constructor
  · intro d vals
    rfl
  · intro schema
    induction schema with
    | nil => intro vals; rfl
    | cons f fs ih =>
      intro vals
      cases vals with
      | nil =>
        cases f with
        | mk n ty => rfl
      | cons v vs =>
        cases f with
        | mk n ty =>
          by_cases hi : isinstance v ty
          · simp [rowValidate, firstMismatch, hi, ih]
          · simp [rowValidate, firstMismatch, hi]

/-- C5 counterexample: the claim fails on the code.  Clearing the
parent-older-than-child bit on a fresh iedge table leaves flags = 1 (bit
cleared), but `copy()` — one of the operations the claim names — builds a fresh
instance whose `__init__` resets flags to `VALID_GIG`, so the cleared guarantee
bit is set again on the copy without any re-validation. -/
theorem C5_copy_resets_cleared_flag :
    (({} : IEdgeTable).unset_bitflag IEDGES_PARENT_OLDER_THAN_CHILD).flags = 1 ∧
    Int.land (({} : IEdgeTable).unset_bitflag IEDGES_PARENT_OLDER_THAN_CHILD).flags
      IEDGES_PARENT_OLDER_THAN_CHILD = 0 ∧
    ((({} : IEdgeTable).unset_bitflag IEDGES_PARENT_OLDER_THAN_CHILD).copy).flags
      = VALID_GIG ∧
    Int.land ((({} : IEdgeTable).unset_bitflag IEDGES_PARENT_OLDER_THAN_CHILD).copy).flags
      IEDGES_PARENT_OLDER_THAN_CHILD ≠ 0 := by
  exact ⟨by decide, by decide, rfl, by decide⟩

/-- C5 amended: clearing a guarantee bit is monotone only on the table object
itself; the operations the claim names do NOT preserve cleared bits, because
they produce fresh tables: `copy()` always returns a table with flags reset to
`VALID_GIG`, a non-empty `sort()` replaces the iedge table by a fresh one with
flags `VALID_GIG`, and a successful `decapitate()` likewise leaves the iedge
flags at `VALID_GIG`. -/
theorem C5_rebuilds_reset_flags :
    (∀ (t : IEdgeTable) (f : Int), ((t.unset_bitflag f).copy).flags = VALID_GIG) ∧
    (∀ (tb tb' : Tables), tb.iedges.data ≠ [] → tb.sort = .ok tb' →
      tb'.iedges.flags = VALID_GIG) ∧
    (∀ (tb tb' : Tables) (c : ℚ), tb.decapitate c = .ok tb' →
      tb'.iedges.flags = VALID_GIG) := by
  refine ⟨fun t f => rfl, ?_, ?_⟩
  · intro tb tb' hne hok
    have h := (sort_ok_spec hok).2.2.2.2.2
    rw [h, if_neg (fun hc => hne (List.isEmpty_iff.mp hc))]
  · intro tb tb' c hok
    obtain ⟨acc, newEdges, h1, h2, hf, hsort⟩ := decapitate_ok_parts hok
    have h := (sort_ok_spec hsort).2.2.2.2.2
    rw [h]
    split
    · rfl
    · rfl

/-- C5 witness for the amended theorem, applying all three of its parts at
concrete inputs: a copied table after a cleared bit, the sort of the non-empty
unfrozen `tbC1`, and a concrete successful decapitation. -/
theorem C5_rebuilds_reset_flags_witness :
    (((({} : IEdgeTable).unset_bitflag IEDGES_PARENT_OLDER_THAN_CHILD).copy).flags
      = VALID_GIG) ∧
    ((tbC1.sort).map (fun tb => tb.iedges.flags) = .ok VALID_GIG) ∧
    tbWres.iedges.flags = VALID_GIG := by
  refine ⟨?_, ?_, ?_⟩
  · exact C5_rebuilds_reset_flags.1
      (({} : IEdgeTable).unset_bitflag IEDGES_PARENT_OLDER_THAN_CHILD)
      IEDGES_PARENT_OLDER_THAN_CHILD
  · obtain ⟨tb, hs⟩ : ∃ tb, tbC1.sort = .ok tb := ⟨_, rfl⟩
    have hv := C5_rebuilds_reset_flags.2.1 tbC1 tb (by decide) hs
    rw [hs]
    simp [Except.map, hv]
  · exact C5_rebuilds_reset_flags.2.2 tbW tbWres 1 rfl

/-- C6: after `freeze()` every attempted structural mutation — `add_row`,
`append`, `clear`, and attribute reassignment — raises the frozen-mutation
error (the AttributeError paths of the code), no mutation is observable, and
the frozen table still compares equal (row-sequence equality, as `__eq__`
implements it) to its pre-freeze state. -/
theorem C6_freeze_blocks_all_mutation {ρ : Type} (t : BaseTable ρ) (r obj : ρ)
    (d : List ρ) :
    (t.freeze).add_row r = .error frozenAppendErr ∧
    (t.freeze).append obj = .error frozenAppendErr ∧
    (t.freeze).clear = .error frozenSetattrErr ∧
    (t.freeze).assignData d = .error frozenSetattrErr ∧
    BaseTable.eqData (t.freeze) t := by
  exact ⟨rfl, rfl, rfl, rfl, rfl⟩

/-- C8 counterexample: the claim fails on the code.  The value 3.0 passed for
the `edge` keyword is integral-valued, yet the stored row keeps it as the float
3.0 — `edge` (like the chromosome fields) is not in `pcols` and is never passed
through `_check_int`. -/
theorem C8_edge_field_not_coerced :
    (3 : ℚ).den = 1 ∧
    DynIEdgeTable.add_int_row {} (.vint 0) (.vint 10) (.vint 0) (.vint 10)
      (.vint 0) (.vint 1) (.vfloat 3) (.vint NULL) (.vint NULL)
      = .ok ({ data := [{ child_left := .vint 0, child_right := .vint 10,
                          parent_left := .vint 0, parent_right := .vint 10,
                          child := .vint 0, parent := .vint 1,
                          edge := .vfloat 3, child_chromosome := .vint NULL,
                          parent_chromosome := .vint NULL }] }, 0) ∧
    PyVal.vfloat 3 ≠ PyVal.vint 3 := by
  exact ⟨by decide, rfl, by decide⟩

/-- C8 amended: `add_int_row` coerces exactly the four interval coordinates and
the `child`/`parent` keywords (the six `pcols` fields) — accepting any
integral-valued input, e.g. 4.0 becomes 4 — while `edge` and the chromosome
keywords are stored uncoerced; a numeric but non-integral value in a coerced
position raises the not-an-integer ValueError, a value that is no number at all
raises the conversion TypeError, and in both error cases the call returns the
error without appending any row. -/
theorem C8_add_int_row_coerces_pcols_only :
    (∀ (d : List DynIEdgeRow) (a b c e ch pa a1 b1 c1 e1 ch1 pa1 : PyVal)
        (edge ccr pcr : PyVal),
      check_int a = .ok a1 → check_int b = .ok b1 → check_int c = .ok c1 →
      check_int e = .ok e1 → check_int ch = .ok ch1 → check_int pa = .ok pa1 →
      DynIEdgeTable.add_int_row { data := d } a b c e ch pa edge ccr pcr
        = .ok ({ data := d ++
            [{ child_left := a1, child_right := b1, parent_left := c1,
               parent_right := e1, child := ch1, parent := pa1, edge := edge,
               child_chromosome := ccr, parent_chromosome := pcr }] }, d.length)) ∧
    (∀ i : Int, check_int (.vint i) = .ok (.vint i)) ∧
    (∀ q : ℚ, q.den = 1 → check_int (.vfloat q) = .ok (.vint q.num)) ∧
    (∀ q : ℚ, q.den ≠ 1 → check_int (.vfloat q)
        = .error (.valueError ("Expected an integer not " ++ toString q))) ∧
    (∀ s : String, check_int (.vstr s)
        = .error (.typeError ("Could not convert " ++ s ++ " to an integer"))) ∧
    (∀ (t : DynIEdgeTable) (b c e ch pa edge ccr pcr : PyVal) (q : ℚ), q.den ≠ 1 →
      t.add_int_row (.vfloat q) b c e ch pa edge ccr pcr
        = .error (.valueError ("Expected an integer not " ++ toString q))) ∧
    (∀ (t : DynIEdgeTable) (b c e ch pa edge ccr pcr : PyVal) (s : String),
      t.add_int_row (.vstr s) b c e ch pa edge ccr pcr
        = .error (.typeError ("Could not convert " ++ s ++ " to an integer"))) := by
  refine ⟨?_, fun i => rfl, ?_, ?_, fun s => rfl, ?_, ?_⟩
  · intro d a b c e ch pa a1 b1 c1 e1 ch1 pa1 edge ccr pcr h1 h2 h3 h4 h5 h6
    unfold DynIEdgeTable.add_int_row
    rw [h1, h2, h3, h4, h5, h6]
    rfl
  · intro q hq
    simp [check_int, hq]
  · intro q hq
    simp [check_int, hq]
  · intro t b c e ch pa edge ccr pcr q hq
    unfold DynIEdgeTable.add_int_row
    simp [check_int, hq]
  · intro t b c e ch pa edge ccr pcr s
    rfl

/-- C8 witness for the amended theorem: the coordinate 4.0 is coerced to the
integer 4 (the `edge` keyword 3.0 stays a float), the non-integral 1/2 raises
the not-an-integer error, and passing it positionally makes `add_int_row`
return that error. -/
theorem C8_add_int_row_witness :
    DynIEdgeTable.add_int_row { data := [] } (.vfloat 4) (.vint 10) (.vint 0)
      (.vint 10) (.vint 0) (.vint 1) (.vfloat 3) (.vint NULL) (.vint NULL)
      = .ok ({ data := [{ child_left := .vint 4, child_right := .vint 10,
                          parent_left := .vint 0, parent_right := .vint 10,
                          child := .vint 0, parent := .vint 1, edge := .vfloat 3,
                          child_chromosome := .vint NULL,
                          parent_chromosome := .vint NULL }] }, 0) ∧
    check_int (.vfloat oneHalf)
      = .error (.valueError ("Expected an integer not " ++ toString oneHalf)) ∧
    DynIEdgeTable.add_int_row { data := [] } (.vfloat oneHalf) (.vint 10)
      (.vint 0) (.vint 10) (.vint 0) (.vint 1) (.vint NULL) (.vint NULL) (.vint NULL)
      = .error (.valueError ("Expected an integer not " ++ toString oneHalf)) := by
  refine ⟨?_, ?_, ?_⟩
  · exact C8_add_int_row_coerces_pcols_only.1 [] (.vfloat 4) (.vint 10) (.vint 0)
      (.vint 10) (.vint 0) (.vint 1) (.vint 4) (.vint 10) (.vint 0) (.vint 10)
      (.vint 0) (.vint 1) (.vfloat 3) (.vint NULL) (.vint NULL)
      rfl rfl rfl rfl rfl rfl
  · exact C8_add_int_row_coerces_pcols_only.2.2.2.1 oneHalf (by decide)
  · exact C8_add_int_row_coerces_pcols_only.2.2.2.2.2.1 { data := [] } (.vint 10)
      (.vint 0) (.vint 10) (.vint 0) (.vint 1) (.vint NULL) (.vint NULL) (.vint NULL)
      oneHalf (by decide)

/-- A Python/numpy index in `[-n, n)` always looks up an element of the
node-time column. -/
theorem npTimeAt_isSome_of_range {nodes : List NodeTableRow} {i : Int}
    (h1 : -(nodes.length : Int) ≤ i) (h2 : i < (nodes.length : Int)) :
    (npTimeAt nodes i).isSome = true := by
  unfold npTimeAt
  have hj1 : 0 ≤ pyIndex nodes.length i := by
    unfold pyIndex; split <;> omega
  have hj2 : (pyIndex nodes.length i).toNat < nodes.length := by
    unfold pyIndex; split <;> omega
  rw [dif_pos ⟨hj1, hj2⟩]
  rfl

/-- When every coordinate of every edge is integral, the edge-copy loop
succeeds and yields exactly the translated rows. -/
theorem importEdges_ok (chrom : Option Int) (l : List TsEdgeRow)
    (h : ∀ r ∈ l, r.left.den = 1 ∧ r.right.den = 1) :
    importEdges chrom l = .ok (l.map (importedEdge chrom)) := by
  induction l with
  | nil => rfl
  | cons r rest ih =>
    have hr := h r (List.mem_cons_self r rest)
    have hrest := ih (fun x hx => h x (List.mem_cons_of_mem r hx))
    simp [importEdges, importEdge, importedEdge, checkIntQ, hr.1, hr.2, hrest]

/-- `Tables.sort` succeeds on an unfrozen aggregate whose edges all index the
node-time column. -/
theorem sort_ok_exists {t : Tables} (hf : t.frozen = false)
    (hall : ∀ e ∈ t.iedges.data, (npTimeAt t.nodes.data e.child).isSome = true) :
    ∃ t', t.sort = .ok t' := by
  unfold Tables.sort
  by_cases he : t.iedges.data.isEmpty
  · rw [if_pos he]
    exact ⟨t, rfl⟩
  · have hA : t.iedges.data.all (fun e => (npTimeAt t.nodes.data e.child).isSome) = true := by
      rw [List.all_eq_true]
      exact hall
    rw [if_neg he, if_pos hA, hf]
    simp only [Bool.false_eq_true, if_false]
    exact ⟨_, rfl⟩

/-- C9 counterexample: on the feature-free collection `tsBad`,
`from_tree_sequence` does NOT return a Tables — the non-integral coordinate
raises the not-an-integer error during edge expansion. -/
theorem C9_clean_collection_can_still_raise :
    tsBad.migrations = 0 ∧ tsBad.mutations = 0 ∧ tsBad.sites = 0 ∧
    tsBad.populations = 1 ∧
    Tables.from_tree_sequence tsBad none 0
      = .error (.valueError ("Expected an integer not " ++ toString oneHalf)) := by
  exact ⟨rfl, rfl, rfl, rfl, rfl⟩

/-- C9 amended: `from_tree_sequence` refuses a collection with migrations,
mutations, sites, or more than one population, failing with the
unsupported-feature error and returning nothing else (no partially-built
aggregate is observable); and for a collection with none of those features
WHOSE EDGE COORDINATES ARE ALL INTEGRAL-VALUED AND WHOSE EDGES REFERENCE
IN-RANGE CHILD NODES, it returns a Tables whose node times are the source
times each shifted by `timedelta` and whose iedge table is a permutation of
the imported edges, sorted by the code's sort key. -/
theorem C9_guards_and_clean_import :
    (∀ (ts : TreeSequence) (chrom : Option Int) (td : ℚ),
      ts.migrations > 0 ∨ ts.mutations > 0 ∨ ts.sites > 0 ∨ ts.populations > 1 →
      Tables.from_tree_sequence ts chrom td = .error .notImplementedError) ∧
    (∀ (ts : TreeSequence) (chrom : Option Int) (td : ℚ),
      ts.migrations = 0 → ts.mutations = 0 → ts.sites = 0 → ts.populations ≤ 1 →
      (∀ r ∈ ts.edges, r.left.den = 1 ∧ r.right.den = 1 ∧
        -((ts.nodes.length : Int)) ≤ r.child ∧ r.child < (ts.nodes.length : Int)) →
      ∃ tb, Tables.from_tree_sequence ts chrom td = .ok tb ∧
        tb.nodes.data.map (fun nd => nd.time) = ts.nodes.map (fun r => r.time + td) ∧
        tb.iedges.data.Perm (ts.edges.map (importedEdge chrom)) ∧
        tb.iedges.data.Pairwise (fun e f => iedgeLE tb.nodes.data e f = true)) := by
  constructor
  · intro ts chrom td hbad
    unfold Tables.from_tree_sequence
    by_cases g1 : ts.migrations > 0
    · rw [if_pos g1]
    · rw [if_neg g1]
      by_cases g2 : ts.mutations > 0
      · rw [if_pos g2]
      · rw [if_neg g2]
        by_cases g3 : ts.sites > 0
        · rw [if_pos g3]
        · rw [if_neg g3]
          have g4 : ts.populations > 1 := by
            rcases hbad with h | h | h | h
            · omega
            · omega
            · omega
            · exact h
          rw [if_pos g4]
  · intro ts chrom td h1 h2 h3 h4 hedges
    unfold Tables.from_tree_sequence
    rw [if_neg (by omega : ¬ ts.migrations > 0),
        if_neg (by omega : ¬ ts.mutations > 0),
        if_neg (by omega : ¬ ts.sites > 0),
        if_neg (by omega : ¬ ts.populations > 1),
        importEdges_ok chrom ts.edges (fun r hr => ⟨(hedges r hr).1, (hedges r hr).2.1⟩)]
    have hall : ∀ e ∈ (ts.edges.map (importedEdge chrom)),
        (npTimeAt (ts.nodes.map (fun r =>
          ({ time := r.time + td, flags := r.flags,
             individual := r.individual } : NodeTableRow))) e.child).isSome = true := by
      intro e he
      obtain ⟨r, hr, hre⟩ := List.mem_map.mp he
      have hb := (hedges r hr).2.2
      rw [← hre]
      have hlen : (ts.nodes.map (fun r =>
          ({ time := r.time + td, flags := r.flags,
             individual := r.individual } : NodeTableRow))).length = ts.nodes.length :=
        List.length_map _ _
      refine npTimeAt_isSome_of_range ?_ ?_
      · rw [hlen]
        exact hb.1
      · rw [hlen]
        exact hb.2
    obtain ⟨tb, hs⟩ := @sort_ok_exists
      { nodes := { data := ts.nodes.map (fun r =>
          { time := r.time + td, flags := r.flags, individual := r.individual }) },
        iedges := { data := ts.edges.map (importedEdge chrom) },
        individuals := { data := ts.individuals.map (fun r => ⟨r.parents⟩) },
        time_units := ts.time_units } rfl hall
    obtain ⟨hnodes, _hind, _htu, _hfr, hperm, _hflags⟩ := sort_ok_spec hs
    refine ⟨tb, hs, ?_, hperm, sort_ok_sorted hs⟩
    rw [hnodes]
    simp [List.map_map, Function.comp]

/-- C9 witness for the amended theorem: a collection with one migration row is
refused, and the clean two-node, one-edge collection `tsW` imports with its
node times shifted by 5 and its single edge intact. -/
theorem C9_guards_and_clean_import_witness :
    Tables.from_tree_sequence { migrations := 1 } none 0
      = .error .notImplementedError ∧
    (∃ tb, Tables.from_tree_sequence tsW none 5 = .ok tb ∧
      tb.nodes.data.map (fun nd => nd.time) = tsW.nodes.map (fun r => r.time + 5) ∧
      tb.iedges.data.Perm (tsW.edges.map (importedEdge none)) ∧
      tb.iedges.data.Pairwise (fun e f => iedgeLE tb.nodes.data e f = true)) := by
  exact ⟨C9_guards_and_clean_import.1 { migrations := 1 } none 0 (Or.inl (by decide)),
         C9_guards_and_clean_import.2 tsW none 5 rfl rfl rfl (by decide) (by decide)⟩

/-- Two members of a pairwise-related list are equal or related one way. -/
theorem pairwise_mem_rel {α : Type} {R : α → α → Prop} {l : List α}
    (h : l.Pairwise R) {a b : α} (ha : a ∈ l) (hb : b ∈ l) :
    a = b ∨ R a b ∨ R b a := by
  induction l with
  | nil => exact absurd ha (List.not_mem_nil a)
  | cons x xs ih =>
    rcases List.pairwise_cons.mp h with ⟨hx, hxs⟩
    rcases List.mem_cons.mp ha with ha1 | ha2
    · rcases List.mem_cons.mp hb with hb1 | hb2
      · exact Or.inl (ha1.trans hb1.symm)
      · exact Or.inr (Or.inl (ha1 ▸ hx b hb2))
    · rcases List.mem_cons.mp hb with hb1 | hb2
      · exact Or.inr (Or.inr (hb1 ▸ hx a ha2))
      · exact ih hxs ha2 hb2

/-- In an association list with strictly descending keys, membership determines
the lookup. -/
theorem amLookup_of_mem_desc {m : List (Int × Int)}
    (hdesc : m.Pairwise (fun p q => q.1 < p.1 ∧ q.2 < p.2)) {k v : Int}
    (h : (k, v) ∈ m) : amLookup m k = some v := by
  induction m with
  | nil => exact absurd h (List.not_mem_nil _)
  | cons kv0 tl ih =>
    rcases List.pairwise_cons.mp hdesc with ⟨h0, htl⟩
    rcases List.mem_cons.mp h with h1 | h2
    · rw [← h1, amLookup_cons, if_pos rfl]
    · have hk : k < kv0.1 := (h0 (k, v) h2).1
      cases kv0 with
      | mk k0 v0 =>
        rw [amLookup_cons]
        rw [if_neg (by simp at hk ⊢; omega)]
        exact ih htl h2

/-- Every value stored in a map whose value column is `reverse (range n)` is a
valid new-table index. -/
theorem nmap_vals_bounds {nmap : List (Int × Int)} {n : Nat}
    (hvals : nmap.map Prod.snd = ((List.range n).reverse).map Int.ofNat) :
    ∀ kv ∈ nmap, 0 ≤ kv.2 ∧ kv.2 < (n : Int) := by
  intro kv hkv
  have hm : kv.2 ∈ nmap.map Prod.snd := List.mem_map_of_mem _ hkv
  rw [hvals] at hm
  obtain ⟨j, hj, hje⟩ := List.mem_map.mp hm
  rw [List.mem_reverse, List.mem_range] at hj
  have hje2 : (j : Int) = kv.2 := hje
  omega

/-- A kept index lies below the original node-table length. -/
theorem keptNode_lt {orig : List NodeTableRow} {c : ℚ} {k : Int}
    (h : keptNode orig c k) : k < (orig.length : Int) := by
  obtain ⟨h0, nd, hnd, _⟩ := h
  have := (List.getElem?_eq_some.mp hnd).1
  omega

/-- The edge pass of `decapitate`, when it succeeds, returns exactly the
original edges whose parent is a key of the node map, in order, each rewritten
through `remapEdge`; moreover every kept edge's child is also a key of the
node map (otherwise the pass would have raised KeyError). -/
theorem decapEdgesGo_ok (nmap : List (Int × Int)) :
    ∀ (l acc out : List IEdgeTableRow),
      decapEdgesGo nmap acc l = .ok out →
      out = acc ++ (l.filter (fun ie => (amLookup nmap ie.parent).isSome)).map (remapEdge nmap) ∧
      ∀ ie ∈ l, (amLookup nmap ie.parent).isSome = true →
        (amLookup nmap ie.child).isSome = true := by
  intro l
  induction l with
  | nil =>
    intro acc out h
    unfold decapEdgesGo at h
    simp only [Except.ok.injEq] at h
    constructor
    · simp [← h]
    · intro ie hie
      exact absurd hie (List.not_mem_nil ie)
  | cons ie rest ih =>
    intro acc out h
    unfold decapEdgesGo at h
    cases hp : amLookup nmap ie.parent with
    | none =>
      rw [hp] at h
      obtain ⟨h1, h2⟩ := ih _ _ h
      constructor
      · rw [h1]
        simp [List.filter_cons, hp]
      · intro x hx hxs
        rcases List.mem_cons.mp hx with hx1 | hx2
        · rw [hx1, hp] at hxs
          simp at hxs
        · exact h2 x hx2 hxs
    | some p =>
      rw [hp] at h
      cases hc : amLookup nmap ie.child with
      | none =>
        rw [hc] at h
        exact absurd h (by simp)
      | some ch =>
        rw [hc] at h
        obtain ⟨h1, h2⟩ := ih _ _ h
        constructor
        · rw [h1]
          rw [List.filter_cons]
          rw [if_pos (by rw [hp]; rfl)]
          rw [List.map_cons]
          rw [show remapEdge nmap ie =
              { child_left := ie.child_left, child_right := ie.child_right,
                parent_left := ie.parent_left, parent_right := ie.parent_right,
                child := ch, parent := p } from by
            unfold remapEdge
            rw [hp, hc]
            rfl]
          rw [List.append_assoc]
          rfl
        · intro x hx hxs
          rcases List.mem_cons.mp hx with hx1 | hx2
          · rw [hx1, hc]
            rfl
          · exact h2 x hx2 hxs

/-- Appending one kept node (original index `u`, new index `nds.length`)
preserves the node-map invariants and extends the kept-characterisation from
`u` to `u + 1`. -/
theorem decapNodeStep {orig : List NodeTableRow} {c : ℚ} {u : Nat}
    {nds : List NodeTableRow} {nmap : List (Int × Int)} {nd : NodeTableRow}
    (hkeys : ∀ kv ∈ nmap, 0 ≤ kv.1 ∧ kv.1 < (u : Int))
    (hdesc : nmap.Pairwise (fun p q => q.1 < p.1 ∧ q.2 < p.2))
    (hvals : nmap.map Prod.snd = ((List.range nds.length).reverse).map Int.ofNat)
    (hchar : ∀ k : Int, (amLookup nmap k).isSome = true ↔
      (k < (u : Int) ∧ keptNode orig c k))
    (hu : orig[u]? = some nd) (ht : nd.time < c) (x : NodeTableRow) :
    (∀ kv ∈ (((u : Int), (nds.length : Int)) :: nmap),
       0 ≤ kv.1 ∧ kv.1 < ((u + 1 : Nat) : Int)) ∧
    ((((u : Int), (nds.length : Int)) :: nmap).Pairwise
       (fun p q => q.1 < p.1 ∧ q.2 < p.2)) ∧
    ((((u : Int), (nds.length : Int)) :: nmap).map Prod.snd
       = ((List.range (nds ++ [x]).length).reverse).map Int.ofNat) ∧
    (∀ k : Int, (amLookup (((u : Int), (nds.length : Int)) :: nmap) k).isSome = true ↔
       (k < ((u + 1 : Nat) : Int) ∧ keptNode orig c k)) := by
  have hbounds := nmap_vals_bounds hvals
  refine ⟨?_, ?_, ?_, ?_⟩
  · intro kv hkv
    obtain ⟨a, b⟩ := kv
    rcases List.mem_cons.mp hkv with h1 | h2
    · simp only [Prod.mk.injEq] at h1
      obtain ⟨ha, hb⟩ := h1
      constructor
      · rw [ha]
        exact Int.natCast_nonneg u
      · rw [ha]
        omega
    · have := hkeys (a, b) h2
      constructor
      · exact this.1
      · have h2b := this.2
        omega
  · refine List.pairwise_cons.mpr ⟨?_, hdesc⟩
    intro q hq
    exact ⟨(hkeys q hq).2, (hbounds q hq).2⟩
  · simp only [List.map_cons, List.length_append, List.length_cons,
      List.length_nil, List.range_succ, List.reverse_append, List.reverse_cons,
      List.reverse_nil, List.nil_append, List.cons_append, hvals]
    rfl
  · intro k
    rw [amLookup_cons]
    by_cases hk : (u : Int) = k
    · rw [if_pos hk]
      refine ⟨fun _ => ⟨by omega, ?_⟩, fun _ => rfl⟩
      rw [← hk]
      refine ⟨Int.natCast_nonneg u, nd, ?_, ht⟩
      rw [Int.toNat_natCast]
      exact hu
    · rw [if_neg hk]
      rw [hchar k]
      constructor
      · rintro ⟨h1, h2⟩
        exact ⟨by omega, h2⟩
      · rintro ⟨h1, h2⟩
        refine ⟨?_, h2⟩
        have h0 : 0 ≤ k := h2.1
        omega

/-- The node/individual pass of `decapitate` preserves the invariant across
any suffix of the original node list. -/
theorem decapNodesGo_inv (c : ℚ) (origIndivs : List IndividualTableRow)
    (orig : List NodeTableRow) :
    ∀ (l : List NodeTableRow) (u : Nat) (acc out : DecapAcc),
      decapNodesGo c origIndivs l u acc = .ok out →
      orig.drop u = l →
      DecapInv orig c u acc →
      DecapInv orig c (u + l.length) out := by
  intro l
  induction l with
  | nil =>
    intro u acc out h hdrop hinv
    unfold decapNodesGo at h
    simp only [Except.ok.injEq] at h
    rw [← h]
    simpa using hinv
  | cons nd rest ih =>
    intro u acc out h hdrop hinv
    have hu : orig[u]? = some nd := by
      have h0 := List.getElem?_drop orig u 0
      rw [hdrop] at h0
      simpa using h0.symm
    have hdrop2 : orig.drop (u + 1) = rest := by
      have h0 : orig.drop (u + 1) = List.drop 1 (orig.drop u) := (List.drop_drop 1 u orig).symm
      rw [hdrop] at h0
      simpa using h0
    have hlen : u + (nd :: rest).length = (u + 1) + rest.length := by
      simp [List.length_cons]
      omega
    rw [hlen]
    unfold decapNodesGo at h
    by_cases ht : nd.time < c
    · rw [if_pos ht] at h
      cases hg : pyListGet origIndivs nd.individual with
      | error e =>
        rw [hg] at h
        exact absurd h (by simp)
      | ok indiv =>
        rw [hg] at h
        by_cases him : (amLookup acc.imap nd.individual).isSome
        · simp only [him, if_true] at h
          refine ih (u + 1) _ out h hdrop2 ?_
          obtain ⟨hs1, hs2, hs3, hs4⟩ := decapNodeStep hinv.nmap_keys hinv.nmap_desc
            hinv.nmap_vals hinv.nmap_char hu ht
            { time := nd.time, flags := nd.flags,
              individual := (amLookup acc.imap nd.individual).getD NULL }
          refine ⟨?_, hinv.imap_val, hinv.ind_par, hs1, hs2, hs3, hs4⟩
          intro nd' hnd'
          rcases List.mem_append.mp hnd' with h1 | h2
          · exact hinv.nds_time nd' h1
          · rw [List.mem_singleton.mp h2]
            exact ht
        · simp only [him, Bool.false_eq_true, if_false] at h
          refine ih (u + 1) _ out h hdrop2 ?_
          obtain ⟨hs1, hs2, hs3, hs4⟩ := decapNodeStep hinv.nmap_keys hinv.nmap_desc
            hinv.nmap_vals hinv.nmap_char hu ht
            { time := nd.time, flags := nd.flags,
              individual := (amLookup ((nd.individual, (acc.indivs.length : Int)) :: acc.imap)
                nd.individual).getD NULL }
          refine ⟨?_, ?_, ?_, hs1, hs2, hs3, hs4⟩
          · intro nd' hnd'
            rcases List.mem_append.mp hnd' with h1 | h2
            · exact hinv.nds_time nd' h1
            · rw [List.mem_singleton.mp h2]
              exact ht
          · intro kv hkv
            obtain ⟨a, b⟩ := kv
            rcases List.mem_cons.mp hkv with h1 | h2
            · simp only [Prod.mk.injEq] at h1
              right
              constructor
              · rw [h1.2]
                exact Int.natCast_nonneg _
              · rw [h1.2]
                simp [List.length_append]
            · rcases hinv.imap_val (a, b) h2 with h3 | h3
              · exact Or.inl h3
              · right
                refine ⟨h3.1, ?_⟩
                have := h3.2
                simp only [List.length_append, List.length_cons, List.length_nil]
                omega
          · intro ind hind
            rcases List.mem_append.mp hind with h1 | h2
            · intro p hp
              rcases hinv.ind_par ind h1 p hp with h3 | h3
              · exact Or.inl h3
              · right
                refine ⟨h3.1, ?_⟩
                have := h3.2
                simp only [List.length_append, List.length_cons, List.length_nil]
                omega
            · intro p hp
              rw [List.mem_singleton.mp h2] at hp
              simp only at hp
              obtain ⟨j, _hj, hpe⟩ := List.mem_map.mp hp
              cases hpj : amLookup acc.imap j with
              | none =>
                rw [hpj] at hpe
                exact Or.inl hpe.symm
              | some v =>
                rw [hpj] at hpe
                simp only [Option.getD_some] at hpe
                rcases hinv.imap_val (j, v) (amLookup_eq_some hpj) with h3 | h3
                · rw [← hpe]
                  exact Or.inl h3
                · right
                  rw [← hpe]
                  refine ⟨h3.1, ?_⟩
                  have := h3.2
                  simp only [List.length_append, List.length_cons, List.length_nil]
                  omega
    · rw [if_neg ht] at h
      refine ih (u + 1) acc out h hdrop2 ?_
      refine ⟨hinv.nds_time, hinv.imap_val, hinv.ind_par, ?_, hinv.nmap_desc,
        hinv.nmap_vals, ?_⟩
      · intro kv hkv
        have := hinv.nmap_keys kv hkv
        constructor
        · exact this.1
        · have h2 := this.2
          omega
      · intro k
        rw [hinv.nmap_char k]
        constructor
        · rintro ⟨h1, h2⟩
          exact ⟨by omega, h2⟩
        · rintro ⟨h1, h2⟩
          refine ⟨?_, h2⟩
          by_cases hku : k = (u : Int)
          · exfalso
            obtain ⟨h0, nd', hnd', ht'⟩ := h2
            rw [hku, Int.toNat_natCast, hu] at hnd'
            have : nd' = nd := by
              injection hnd' with hh
              exact hh.symm
            rw [this] at ht'
            exact ht ht'
          · have h0 : 0 ≤ k := h2.1
            omega

/-- Invariant of the completed node pass, started from the seed accumulator
(`individual_map = {NULL: NULL}`, everything else empty). -/
theorem decapNodesGo_spec (c : ℚ) (origIndivs : List IndividualTableRow)
    (orig : List NodeTableRow) (out : DecapAcc)
    (h : decapNodesGo c origIndivs orig 0 ⟨[], [(NULL, NULL)], [], []⟩ = .ok out) :
    DecapInv orig c orig.length out := by
  have hinit : DecapInv orig c 0 ⟨[], [(NULL, NULL)], [], []⟩ := by
    refine ⟨?_, ?_, ?_, ?_, ?_, ?_, ?_⟩
    · intro nd hnd
      exact absurd hnd (List.not_mem_nil _)
    · intro kv hkv
      rcases List.mem_cons.mp hkv with h1 | h2
      · left
        rw [h1]
      · exact absurd h2 (List.not_mem_nil _)
    · intro ind hind
      exact absurd hind (List.not_mem_nil _)
    · intro kv hkv
      exact absurd hkv (List.not_mem_nil _)
    · exact List.Pairwise.nil
    · rfl
    · intro k
      constructor
      · intro hs
        exact absurd hs (by simp [amLookup])
      · rintro ⟨h1, h2⟩
        have h0 := h2.1
        omega
  have hmain := decapNodesGo_inv c origIndivs orig orig 0 _ out h (by simp) hinit
  simpa using hmain

/-- C7: whenever `decapitate` returns normally, every surviving node's time is
below the cutoff; every surviving iedge's child and parent index a surviving
node; there is a node remap `m` — defined exactly on the kept original node
indices, order-preserving, with values exactly the dense new id range — such
that the surviving iedges are a permutation of exactly the original iedges
whose parent node was kept, rewritten through `m`; and every surviving
individual's parent references are NULL or indices of surviving individuals. -/
theorem C7_decapitate_containment (t : Tables) (c : ℚ) (t' : Tables)
    (h : t.decapitate c = .ok t') :
    (∀ nd ∈ t'.nodes.data, nd.time < c) ∧
    (∀ ie ∈ t'.iedges.data,
       (0 ≤ ie.child ∧ ie.child < (t'.nodes.data.length : Int)) ∧
       (0 ≤ ie.parent ∧ ie.parent < (t'.nodes.data.length : Int))) ∧
    (∃ m : List (Int × Int),
       (∀ k : Int, (amLookup m k).isSome = true ↔ keptNode t.nodes.data c k) ∧
       (∀ k1 v1 k2 v2, amLookup m k1 = some v1 → amLookup m k2 = some v2 →
          (k1 < k2 ↔ v1 < v2)) ∧
       (∀ k v, amLookup m k = some v → 0 ≤ v ∧ v < (t'.nodes.data.length : Int)) ∧
       (∀ v : Int, 0 ≤ v → v < (t'.nodes.data.length : Int) →
          ∃ k, amLookup m k = some v) ∧
       t'.iedges.data.Perm
         ((t.iedges.data.filter (fun ie => (amLookup m ie.parent).isSome)).map
            (remapEdge m))) ∧
    (∀ ind ∈ t'.individuals.data, ∀ p ∈ ind.parents,
       p = NULL ∨ (0 ≤ p ∧ p < (t'.individuals.data.length : Int))) := by
  obtain ⟨acc, newEdges, h1, h2, hf, hsort⟩ := decapitate_ok_parts h
  have hinv := decapNodesGo_spec c t.individuals.data t.nodes.data acc h1
  obtain ⟨hE, hkc⟩ := decapEdgesGo_ok acc.nmap t.iedges.data [] newEdges h2
  simp only [List.nil_append] at hE
  obtain ⟨hnodes, hindATT, _htu, _hfr, hperm, _hflags⟩ := sort_ok_spec hsort
  have hnodes' : t'.nodes.data = acc.nds := by rw [hnodes]
  have hind' : t'.individuals.data = acc.indivs := by rw [hindATT]
  have hchar : ∀ k : Int,
      (amLookup acc.nmap k).isSome = true ↔ keptNode t.nodes.data c k := by
    intro k
    rw [hinv.nmap_char k]
    constructor
    · rintro ⟨_, hk2⟩
      exact hk2
    · intro hk2
      exact ⟨keptNode_lt hk2, hk2⟩
  have hbounds := nmap_vals_bounds hinv.nmap_vals
  refine ⟨?_, ?_, ⟨acc.nmap, hchar, ?_, ?_, ?_, ?_⟩, ?_⟩
  · intro nd hnd
    rw [hnodes'] at hnd
    exact hinv.nds_time nd hnd
  · intro ie hie
    have hie2 : ie ∈ newEdges := hperm.mem_iff.mp hie
    rw [hE] at hie2
    obtain ⟨ie0, hie0, hre⟩ := List.mem_map.mp hie2
    have hp : (amLookup acc.nmap ie0.parent).isSome = true := (List.mem_filter.mp hie0).2
    have hie0l : ie0 ∈ t.iedges.data := (List.mem_filter.mp hie0).1
    have hc : (amLookup acc.nmap ie0.child).isSome = true := hkc ie0 hie0l hp
    obtain ⟨vc, hvc⟩ := Option.isSome_iff_exists.mp hc
    obtain ⟨vp, hvp⟩ := Option.isSome_iff_exists.mp hp
    have hch : ie.child = vc := by
      rw [← hre]
      unfold remapEdge
      rw [hvc]
      rfl
    have hpa : ie.parent = vp := by
      rw [← hre]
      unfold remapEdge
      rw [hvp]
      rfl
    rw [hch, hpa, hnodes']
    exact ⟨hbounds (ie0.child, vc) (amLookup_eq_some hvc),
           hbounds (ie0.parent, vp) (amLookup_eq_some hvp)⟩
  · intro k1 v1 k2 v2 hv1 hv2
    have m1 := amLookup_eq_some hv1
    have m2 := amLookup_eq_some hv2
    rcases pairwise_mem_rel hinv.nmap_desc m1 m2 with he | hr | hr
    · simp only [Prod.mk.injEq] at he
      obtain ⟨hk, hv⟩ := he
      rw [hk, hv]
      constructor
      · intro hlt
        exact absurd hlt (lt_irrefl _)
      · intro hlt
        exact absurd hlt (lt_irrefl _)
    · have ha : k2 < k1 := hr.1
      have hb : v2 < v1 := hr.2
      constructor
      · intro hlt
        omega
      · intro hlt
        omega
    · have ha : k1 < k2 := hr.1
      have hb : v1 < v2 := hr.2
      constructor
      · intro hlt
        omega
      · intro hlt
        omega
  · intro k v hv
    rw [hnodes']
    exact hbounds (k, v) (amLookup_eq_some hv)
  · intro v h0 hvlt
    rw [hnodes'] at hvlt
    have hmem : v ∈ acc.nmap.map Prod.snd := by
      rw [hinv.nmap_vals]
      refine List.mem_map.mpr ⟨v.toNat, ?_, ?_⟩
      · rw [List.mem_reverse, List.mem_range]
        omega
      · exact Int.toNat_of_nonneg h0
    obtain ⟨kv, hkv, hvv⟩ := List.mem_map.mp hmem
    refine ⟨kv.1, ?_⟩
    have hmem2 : (kv.1, v) ∈ acc.nmap := by
      have hkveq : kv = (kv.1, v) := by
        cases kv
        simp_all
      rw [← hkveq]
      exact hkv
    exact amLookup_of_mem_desc hinv.nmap_desc hmem2
  · exact hperm.trans (by rw [hE])
  · intro ind hind p hp
    rw [hind'] at hind
    rcases hinv.ind_par ind hind p hp with h3 | h3
    · exact Or.inl h3
    · right
      rw [hind']
      exact h3

/-- C10: every iedge surviving a normal `decapitate` has its `edge`,
`child_chromosome` and `parent_chromosome` fields reset to the NULL sentinel —
even when the original edge carried non-null values in those fields — and
carries over exactly the four coordinates of an original edge, the endpoints
being the remapped ones. -/
theorem C10_decapitate_resets_reference_fields (t : Tables) (c : ℚ) (t' : Tables)
    (h : t.decapitate c = .ok t') :
    ∀ ie ∈ t'.iedges.data,
      ie.edge = NULL ∧ ie.child_chromosome = NULL ∧ ie.parent_chromosome = NULL ∧
      ∃ ie0 ∈ t.iedges.data,
        ie.child_left = ie0.child_left ∧ ie.child_right = ie0.child_right ∧
        ie.parent_left = ie0.parent_left ∧ ie.parent_right = ie0.parent_right := by
  obtain ⟨acc, newEdges, h1, h2, hf, hsort⟩ := decapitate_ok_parts h
  obtain ⟨hE, _⟩ := decapEdgesGo_ok acc.nmap t.iedges.data [] newEdges h2
  simp only [List.nil_append] at hE
  obtain ⟨_, _, _, _, hperm, _⟩ := sort_ok_spec hsort
  intro ie hie
  have hie2 : ie ∈ newEdges := hperm.mem_iff.mp hie
  rw [hE] at hie2
  obtain ⟨ie0, hie0, hre⟩ := List.mem_map.mp hie2
  have hie0l : ie0 ∈ t.iedges.data := (List.mem_filter.mp hie0).1
  refine ⟨?_, ?_, ?_, ie0, hie0l, ?_, ?_, ?_, ?_⟩ <;> rw [← hre] <;> rfl

/-- C7 witness: the containment theorem applied to the concrete decapitation
`tbW.decapitate 1 = .ok tbWres`, discharging its hypothesis by computation. -/
theorem C7_decapitate_containment_witness :
    (∀ nd ∈ tbWres.nodes.data, nd.time < 1) ∧
    (∀ ie ∈ tbWres.iedges.data,
       (0 ≤ ie.child ∧ ie.child < (tbWres.nodes.data.length : Int)) ∧
       (0 ≤ ie.parent ∧ ie.parent < (tbWres.nodes.data.length : Int))) ∧
    (∃ m : List (Int × Int),
       (∀ k : Int, (amLookup m k).isSome = true ↔ keptNode tbW.nodes.data 1 k) ∧
       (∀ k1 v1 k2 v2, amLookup m k1 = some v1 → amLookup m k2 = some v2 →
          (k1 < k2 ↔ v1 < v2)) ∧
       (∀ k v, amLookup m k = some v → 0 ≤ v ∧ v < (tbWres.nodes.data.length : Int)) ∧
       (∀ v : Int, 0 ≤ v → v < (tbWres.nodes.data.length : Int) →
          ∃ k, amLookup m k = some v) ∧
       tbWres.iedges.data.Perm
         ((tbW.iedges.data.filter (fun ie => (amLookup m ie.parent).isSome)).map
            (remapEdge m))) ∧
    (∀ ind ∈ tbWres.individuals.data, ∀ p ∈ ind.parents,
       p = NULL ∨ (0 ≤ p ∧ p < (tbWres.individuals.data.length : Int))) :=
  C7_decapitate_containment tbW 1 tbWres rfl

/-- C10 witness: the field-reset theorem applied to the concrete decapitation
`tbW.decapitate 1 = .ok tbWres`, instantiated at the single surviving edge;
the corresponding original edge of `tbW` carried edge id 7 and chromosomes 3
and 4, all reset to NULL here. -/
theorem C10_decapitate_resets_reference_fields_witness :
    ieWres ∈ tbWres.iedges.data ∧
    ieWres.edge = NULL ∧ ieWres.child_chromosome = NULL ∧
    ieWres.parent_chromosome = NULL ∧
    (∃ ie0 ∈ tbW.iedges.data,
      ieWres.child_left = ie0.child_left ∧ ieWres.child_right = ie0.child_right ∧
      ieWres.parent_left = ie0.parent_left ∧ ieWres.parent_right = ie0.parent_right) :=
  ⟨List.mem_singleton.mpr rfl,
   C10_decapitate_resets_reference_fields tbW 1 tbWres rfl ieWres
     (List.mem_singleton.mpr rfl)⟩
